import Mathlib

/-!
Verification development for the comment-attachment subsystem of a
TypeScript syntax-tree wrapper (`CommentNodeParser`).  The parser source is
embedded shallowly: positions are `Nat` offsets into the source text
(a `List Char`), tree nodes are explicit values, and the stateful comment
scanner is explicit state passing over a `ScannerState`.

The `CommentNodeParser` file is embedded directly from its source.  The
comment scanner (`createCommentScanner`) and `StringUtils.getLineStartFromPos`
are collaborators whose source is not part of the reviewed material; they are
modelled from the specification, as marked on each definition.
-/

/-- Syntax kinds relevant to the comment node parser (a finite restriction of
the external parser's kind enumeration; `Other` stands for every kind the
subsystem does not distinguish). -/
inductive SyntaxKind where
  | SourceFile
  | Block
  | ModuleBlock
  | CaseClause
  | DefaultClause
  | ClassDeclaration
  | InterfaceDeclaration
  | EnumDeclaration
  | ClassExpression
  | TypeLiteral
  | ObjectLiteralExpression
  | SyntaxList
  | OpenBraceToken
  | CloseBraceToken
  | ColonToken
  | EndOfFileToken
  | JSDocComment
  | SingleLineCommentTrivia
  | MultiLineCommentTrivia
  | Other
deriving DecidableEq, Repr

/-- A node of the frozen syntax tree: identity, kind tag, full start (`pos`),
token start (`strt`, the source's `getStart(sourceFile)`), end offset
(`endP`), the start of an attached documentation comment when present
(`jsDocStart`, the source's `jsDoc?.[0].getStart(sourceFile)`), and the
immediate children in source order. -/
inductive TsNode where
  | mk (id : Nat) (kind : SyntaxKind) (pos strt endP : Nat)
      (jsDocStart : Option Nat) (children : List TsNode)

def TsNode.id : TsNode → Nat
  | .mk i _ _ _ _ _ _ => i

def TsNode.kind : TsNode → SyntaxKind
  | .mk _ k _ _ _ _ _ => k

def TsNode.pos : TsNode → Nat
  | .mk _ _ p _ _ _ _ => p

def TsNode.strt : TsNode → Nat
  | .mk _ _ _ s _ _ _ => s

def TsNode.endP : TsNode → Nat
  | .mk _ _ _ _ e _ _ => e

def TsNode.jsDocStart : TsNode → Option Nat
  | .mk _ _ _ _ _ j _ => j

def TsNode.children : TsNode → List TsNode
  | .mk _ _ _ _ _ _ cs => cs

/-- A comment token produced by the comment scanner: kind, full start
(scan origin including preceding trivia), significant start and end. -/
structure CommentTok where
  kind : SyntaxKind
  fullStart : Nat
  pos : Nat
  endPos : Nat
deriving DecidableEq, Repr

/-- The five flavors of comment-list pseudo-node, determined by the owning
container's kind. -/
inductive CommentListKind where
  | Statement
  | ClassElement
  | TypeElement
  | ObjectLiteralElement
  | EnumMember
deriving DecidableEq, Repr

/-- A comment-list pseudo-node (`CompilerCommentList`): a contiguous group of
comment tokens with its own full start, start, end and list-kind tag. -/
structure CommentList where
  commentListKind : CommentListKind
  fullStart : Nat
  pos : Nat
  endPos : Nat
  comments : List CommentTok
deriving DecidableEq, Repr

/-- An element of a computed child or token sequence: a real node, a
comment-list pseudo-node, or a bare comment token. -/
inductive TsElement where
  | node (n : TsNode)
  | commentList (c : CommentList)
  | commentTok (c : CommentTok)

/-- Start offset of a sequence element (`getStart` of a real node, `pos` of a
comment list or comment token). -/
def elStart : TsElement → Nat
  | .node n => n.strt
  | .commentList c => c.pos
  | .commentTok c => c.pos

/-- End offset of a sequence element. -/
def elEnd : TsElement → Nat
  | .node n => n.endP
  | .commentList c => c.endPos
  | .commentTok c => c.endPos

/-- Scanning-significant start of a sequence element: the start of the
attached documentation comment when present, else the element's own start
(the source's `((child as any).jsDoc?.[0] || child).getStart(sourceFile)`). -/
def elChildStart : TsElement → Nat
  | .node n => n.jsDocStart.getD n.strt
  | .commentList c => c.pos
  | .commentTok c => c.pos

/-- Cursor state of the comment scanner: full start and current position. -/
structure ScannerState where
  fullStart : Nat
  pos : Nat
deriving DecidableEq, Repr

/-- The character used when reading past the end of the text (never equal to
any character the scanner tests for). -/
def nullChar : Char := Char.ofNat 0

/-- Character of the source text at an offset, `nullChar` out of range. -/
def charAt (t : List Char) (p : Nat) : Char := t.getD p nullChar

/-- Whitespace other than a line feed. -/
def isSpaceChar (c : Char) : Bool := c = ' ' || c = '\t' || c = '\r'

/-- Whether a comment token begins at an offset. -/
def isCommentStart (t : List Char) (p : Nat) : Bool :=
  charAt t p = '/' && (charAt t (p + 1) = '/' || charAt t (p + 1) = '*')

/-- First offset at or after `p` holding character `c`, else the text length. -/
def findCharFrom (t : List Char) (c : Char) (p : Nat) : Nat :=
  match (t.drop p).findIdx? (fun x => x = c) with
  | some i => p + i
  | none => t.length

/-- Offset just past the first `*/` at or after `p`, else the text length. -/
def findCloseCommentFrom (t : List Char) (p : Nat) : Nat :=
  match ((t.drop p).zip (t.drop (p + 1))).findIdx? (fun x => x.1 = '*' && x.2 = '/') with
  | some i => p + i + 2
  | none => t.length

/-- End offset of the comment starting at `p`: a `//` comment runs to the next
line feed (exclusive), a `/*` comment to just past its closing `*/`. -/
def commentEndFrom (t : List Char) (p : Nat) : Nat :=
  if charAt t (p + 1) = '/' then findCharFrom t '\n' (p + 2)
  else findCloseCommentFrom t (p + 2)

/-- Kind of the comment starting at `p`. -/
def commentKindAt (t : List Char) (p : Nat) : SyntaxKind :=
  if charAt t (p + 1) = '/' then .SingleLineCommentTrivia else .MultiLineCommentTrivia

/-- Modelled from the spec: `StringUtils.getLineStartFromPos` (source not in
the reviewed material) — the offset of the first character of the line
containing `p`, i.e. the offset just past the previous line feed, or `0`. -/
def getLineStartFromPos (t : List Char) : Nat → Nat
  | 0 => 0
  | p + 1 => if charAt t p = '\n' then p + 1 else getLineStartFromPos t p

/-- Modelled from the spec: helper for the scanner's single-line drain — does
the text from `p` up to the next line feed (or end of text) consist only of
whitespace and comments?  Used to decide whether a comment is a trailing
annotation of the current line. -/
def restOfLineIsTriviaAux (t : List Char) : Nat → Nat → Bool
  | 0, _ => true
  | fuel + 1, p =>
    if h : p < t.length then
      if t.get ⟨p, h⟩ = '\n' then true
      else if isSpaceChar (t.get ⟨p, h⟩) then restOfLineIsTriviaAux t fuel (p + 1)
      else if isCommentStart t p then restOfLineIsTriviaAux t fuel (commentEndFrom t p)
      else false
    else true

def restOfLineIsTrivia (t : List Char) (p : Nat) : Bool :=
  restOfLineIsTriviaAux t (t.length + 1) p

/-- Modelled from the spec: the scanner's `scanUntilNewLineOrToken` — drain
trivia from the current position up to the first line feed or significant
token, without collecting.  A comment whose line holds nothing further but
trivia is a trailing annotation and is drained with the line; a comment
followed on its own line by a significant token is left in place for
collection (the spec's empty-container example `{ /* only */ }` requires the
comment there to survive this drain and be grouped). -/
def scanUntilNewLineOrTokenAux (t : List Char) : Nat → Nat → Nat → ScannerState
  | 0, fs, p => ⟨fs, p⟩
  | fuel + 1, fs, p =>
    if h : p < t.length then
      if t.get ⟨p, h⟩ = '\n' then ⟨fs, p⟩
      else if isSpaceChar (t.get ⟨p, h⟩) then scanUntilNewLineOrTokenAux t fuel fs (p + 1)
      else if isCommentStart t p then
        if restOfLineIsTrivia t (commentEndFrom t p) then
          scanUntilNewLineOrTokenAux t fuel (commentEndFrom t p) (commentEndFrom t p)
        else ⟨fs, p⟩
      else ⟨fs, p⟩
    else ⟨fs, p⟩

def scanUntilNewLineOrToken (t : List Char) (s : ScannerState) : ScannerState :=
  scanUntilNewLineOrTokenAux t (t.length + 1) s.fullStart s.pos

/-- Modelled from the spec: the scanner's `scanForNewLines` — collect the
comment tokens appearing before the next blank line or significant token.
A blank line (two or more line feeds since the last collected comment) ends
the group before the following comment; an empty result signals that a
significant token (or the end of text) was reached first. -/
def scanForNewLinesAux (t : List Char) :
    Nat → Nat → Nat → Nat → Bool → List CommentTok × ScannerState
  | 0, fs, p, _, _ => ([], ⟨fs, p⟩)
  | fuel + 1, fs, p, nl, first =>
    if h : p < t.length then
      if t.get ⟨p, h⟩ = '\n' then scanForNewLinesAux t fuel fs (p + 1) (nl + 1) first
      else if isSpaceChar (t.get ⟨p, h⟩) then scanForNewLinesAux t fuel fs (p + 1) nl first
      else if isCommentStart t p then
        if !first && nl ≥ 2 then ([], ⟨fs, p⟩)
        else
          let e := commentEndFrom t p
          let tok : CommentTok := ⟨commentKindAt t p, fs, p, e⟩
          let r := scanForNewLinesAux t fuel e e 0 false
          (tok :: r.1, r.2)
      else ([], ⟨fs, p⟩)
    else ([], ⟨fs, p⟩)

def scanForNewLines (t : List Char) (s : ScannerState) : List CommentTok × ScannerState :=
  scanForNewLinesAux t (t.length + 1) s.fullStart s.pos 0 true

/-- Modelled from the spec: the scanner's `scanUntilToken` — collect every
comment token from the current position up to (but not including) the next
significant token, skipping whitespace and line feeds. -/
def scanUntilTokenAux (t : List Char) : Nat → Nat → Nat → List CommentTok × ScannerState
  | 0, fs, p => ([], ⟨fs, p⟩)
  | fuel + 1, fs, p =>
    if h : p < t.length then
      if t.get ⟨p, h⟩ = '\n' || isSpaceChar (t.get ⟨p, h⟩) then
        scanUntilTokenAux t fuel fs (p + 1)
      else if isCommentStart t p then
        let e := commentEndFrom t p
        let tok : CommentTok := ⟨commentKindAt t p, fs, p, e⟩
        let r := scanUntilTokenAux t fuel e e
        (tok :: r.1, r.2)
      else ([], ⟨fs, p⟩)
    else ([], ⟨fs, p⟩)

def scanUntilToken (t : List Char) (s : ScannerState) : List CommentTok × ScannerState :=
  scanUntilTokenAux t (t.length + 1) s.fullStart s.pos

/-- Modelled from the spec: `skipTrailingLine` inner loop — drain one line,
then skip a trailing comma and repeat (`scanner.setPos(scanner.getPos() + 1)`
leaves the full start unchanged). -/
def skipTrailingLineAux (t : List Char) : Nat → ScannerState → ScannerState
  | 0, s => s
  | fuel + 1, s =>
    let s1 := scanUntilNewLineOrToken t s
    if charAt t s1.pos = ',' then skipTrailingLineAux t fuel ⟨s1.fullStart, s1.pos + 1⟩
    else s1

/-- The source's `skipTrailingLine`: skip nothing when the scan starts at
global offset 0; otherwise drain up to the first line feed or significant
token, skipping any trailing commas. -/
def skipTrailingLine (t : List Char) (s : ScannerState) : ScannerState :=
  if s.pos = 0 then s else skipTrailingLineAux t (t.length + 1) s

/-- Text of a comment token (the source's `comment.getText()`). -/
def commentText (t : List Char) (c : CommentTok) : List Char :=
  (t.drop c.pos).take (c.endPos - c.pos)

/-- The documentation-comment opener `/**`. -/
def jsDocOpener : List Char := ['/', '*', '*']

/-- The empty-body documentation form `/***/`. -/
def emptyJsDocText : List Char := ['/', '*', '*', '*', '/']

/-- The source's `isJsDocComment`: a token of kind `JSDocComment`, or one
whose text starts with `/**` and is not `/***/`. -/
def isJsDocComment (t : List Char) (c : CommentTok) : Bool :=
  c.kind = SyntaxKind.JSDocComment
    || ((commentText t c).take 3 = jsDocOpener && commentText t c ≠ emptyJsDocText)

/-- The source's `getLeadingComments` loop: repeatedly collect newline-bounded
comment groups; stop on an empty group, or — when `stopAtJsDoc` is set —
before yielding a group containing a documentation comment. -/
def getLeadingCommentsAux (t : List Char) (stopAtJsDoc : Bool) :
    Nat → ScannerState → List (List CommentTok) × ScannerState
  | 0, s => ([], s)
  | fuel + 1, s =>
    let r := scanForNewLines t s
    if r.1.isEmpty then ([], r.2)
    else if stopAtJsDoc && r.1.any (isJsDocComment t) then ([], r.2)
    else
      let rest := getLeadingCommentsAux t stopAtJsDoc fuel r.2
      (r.1 :: rest.1, rest.2)

def getLeadingComments (t : List Char) (stopAtJsDoc : Bool) (s : ScannerState) :
    List (List CommentTok) × ScannerState :=
  getLeadingCommentsAux t stopAtJsDoc (t.length + 1) s

/-- The source's `createCommentList`: a list pseudo-node taking its full
start and start from the first member token and its end from the last. -/
def mkCommentList (kind : CommentListKind) (g : List CommentTok) : CommentList :=
  ⟨kind, ((g.head?).map CommentTok.fullStart).getD 0, ((g.head?).map CommentTok.pos).getD 0,
    ((g.getLast?).map CommentTok.endPos).getD 0, g⟩

/-- The ceiling for accepting comment groups, computed from the scanner's
final position: the position itself when it is the end of text or holds a
close brace, else the start of its line. -/
def maxEndFor (t : List Char) (pos : Nat) : Nat :=
  if t.length = pos || charAt t pos = '}' then pos else getLineStartFromPos t pos

/-- The source's `getCommentNodes`: skip the trailing line, collect the
newline-bounded groups, and yield those whose end is at or before the
ceiling. -/
def getCommentNodes (t : List Char) (kind : CommentListKind) (stopAtJsDoc : Bool)
    (s : ScannerState) : List CommentList × ScannerState :=
  let s0 := skipTrailingLine t s
  let r := getLeadingComments t stopAtJsDoc s0
  let maxEnd := maxEndFor t r.2.pos
  (((r.1.map (mkCommentList kind)).filter (fun l => l.endPos ≤ maxEnd)), r.2)

/-- The statement-container kinds (`StatementContainerNodes`,
`singleSyntaxListParents`). -/
def statementContainerKinds : List SyntaxKind :=
  [.SourceFile, .Block, .ModuleBlock, .CaseClause, .DefaultClause]

/-- The source's `isStatementContainerNode` test, as a predicate on kinds. -/
def isStatementContainerKind (k : SyntaxKind) : Prop :=
  k = .SourceFile ∨ k = .Block ∨ k = .ModuleBlock ∨ k = .CaseClause ∨ k = .DefaultClause

instance (k : SyntaxKind) : Decidable (isStatementContainerKind k) := by
  unfold isStatementContainerKind
  infer_instance

/-- The declaration-body container kinds tested by `getContainerBodyPos`
(also `openBraceSyntaxListParents`). -/
def declarationBodyKinds : List SyntaxKind :=
  [.ClassDeclaration, .EnumDeclaration, .InterfaceDeclaration, .TypeLiteral,
    .ClassExpression, .ObjectLiteralExpression]

/-- The kinds recognized by the parser (`commentNodeParserKinds`). -/
def commentNodeParserKinds : List SyntaxKind :=
  [.SourceFile, .Block, .ModuleBlock, .CaseClause, .DefaultClause,
    .ClassDeclaration, .InterfaceDeclaration, .EnumDeclaration, .ClassExpression,
    .TypeLiteral, .ObjectLiteralExpression]

/-- The two failure kinds of the subsystem: an unrecognized container kind
(`throwNotImplementedForNeverValueError` / `NotImplementedError`), and a
declaration body without its structural member-list placeholder
(`"Unexpected scenario where a syntax list could not be found."`).  Both are
thrown in the source; the embedding returns them through `Except`, and no
caller recovers from them. -/
inductive CommentParserError where
  | notImplementedContainer
  | missingSyntaxList
deriving DecidableEq, Repr

/-- The source's `getTokenEnd`: end offset of the first child of the given
kind, if any. -/
def getTokenEnd (container : TsNode) (k : SyntaxKind) : Option Nat :=
  ((container.children.find? (fun c => c.kind = k)).map TsNode.endP)

/-- The source's `getLastSyntaxListPos`: position of the last syntax-list
child, searching the children in reverse; an invariant failure when none
exists. -/
def getLastSyntaxListPos (container : TsNode) : Except CommentParserError Nat :=
  match container.children.reverse.find? (fun c => c.kind = SyntaxKind.SyntaxList) with
  | some syntaxList => .ok syntaxList.pos
  | none => .error .missingSyntaxList

/-- The source's `CommentNodeParser.getContainerBodyPos`.  `sourceFileEnd`
stands for `sourceFile.end` (the text length). -/
def getContainerBodyPos (container : TsNode) (sourceFileEnd : Nat) :
    Except CommentParserError Nat :=
  if container.kind = .SourceFile then .ok 0
  else if container.kind = .ClassDeclaration ∨ container.kind = .EnumDeclaration
      ∨ container.kind = .InterfaceDeclaration ∨ container.kind = .TypeLiteral
      ∨ container.kind = .ClassExpression ∨ container.kind = .ObjectLiteralExpression then
    match getTokenEnd container .OpenBraceToken with
    | some e => .ok e
    | none => getLastSyntaxListPos container
  else if container.kind = .ModuleBlock ∨ container.kind = .Block then
    .ok (min (container.strt + 1) sourceFileEnd)
  else if container.kind = .CaseClause ∨ container.kind = .DefaultClause then
    match getTokenEnd container .ColonToken with
    | some e => .ok e
    | none => getLastSyntaxListPos container
  else .error .notImplementedContainer

/-- The source's `shouldParseChildren`: a recognized container kind whose
position differs from its end. -/
def shouldParseChildren (container : TsNode) : Bool :=
  commentNodeParserKinds.contains container.kind && container.pos != container.endP

/-- First child of the list-child-of-a-container rule for brace containers:
the child immediately following the first open-brace token. -/
def afterBraceSyntaxList : List TsNode → Option TsNode
  | [] => none
  | c :: rest => if c.kind = .OpenBraceToken then rest.head? else afterBraceSyntaxList rest

/-- Children of a container's structural member list (`container.statements`
/ `.members` / `.properties`): the children of the appropriate syntax-list
child of the container. -/
def memberListChildren (container : TsNode) : List TsNode :=
  if statementContainerKinds.contains container.kind then
    (((container.children.find? (fun c => c.kind = SyntaxKind.SyntaxList)).map
      TsNode.children).getD [])
  else
    match afterBraceSyntaxList container.children with
    | some n => if n.kind = SyntaxKind.SyntaxList then n.children else []
    | none => []

/-- The source's `getContainerChildren`: statements for statement containers,
members for declaration bodies, properties for object literals, and a
not-implemented failure for every other kind. -/
def getContainerChildren (container : TsNode) : Except CommentParserError (List TsNode) :=
  if isStatementContainerKind container.kind then .ok (memberListChildren container)
  else if (container.kind = .ClassDeclaration ∨ container.kind = .ClassExpression
      ∨ container.kind = .EnumDeclaration ∨ container.kind = .InterfaceDeclaration
      ∨ container.kind = .TypeLiteral) then .ok (memberListChildren container)
  else if container.kind = .ObjectLiteralExpression then .ok (memberListChildren container)
  else .error .notImplementedContainer

/-- The source's `getCreationFunction`/`getCtor`: the list-kind tag of the
pseudo-nodes created for a container, by the container's kind. -/
def getCommentListKind (container : TsNode) : Except CommentParserError CommentListKind :=
  if isStatementContainerKind container.kind then .ok .Statement
  else if container.kind = .ClassDeclaration ∨ container.kind = .ClassExpression then
    .ok .ClassElement
  else if container.kind = .InterfaceDeclaration ∨ container.kind = .TypeLiteral then
    .ok .TypeElement
  else if container.kind = .ObjectLiteralExpression then .ok .ObjectLiteralElement
  else if container.kind = .EnumDeclaration then .ok .EnumMember
  else .error .notImplementedContainer

/-- One leading-comment pass of `getNodes` followed by the child itself: the
scanner is repositioned to the child's full start
(`scanner.setFullStartAndPos(childNode.pos)`), comment groups are collected
with the JSDoc stop rule enabled, and the child is yielded. -/
def leadingElems (t : List Char) (kind : CommentListKind) (child : TsNode) : List TsElement :=
  ((getCommentNodes t kind true ⟨child.pos, child.pos⟩).1.map TsElement.commentList)
    ++ [TsElement.node child]

/-- One trailing-comment pass of `getNodes` from position `p` with the JSDoc
stop rule disabled. -/
def trailingElems (t : List Char) (kind : CommentListKind) (p : Nat) : List TsElement :=
  (getCommentNodes t kind false ⟨p, p⟩).1.map TsElement.commentList

/-- The source's `getNodes` generator: for an empty container, one trailing
pass starting at the container body position; otherwise a leading pass
before each child and a trailing pass after the last child. -/
def getNodes (t : List Char) (container : TsNode) :
    Except CommentParserError (List TsElement) := do
  let childNodes ← getContainerChildren container
  let kind ← getCommentListKind container
  match childNodes.getLast? with
  | none => do
    let bodyStartPos ← getContainerBodyPos container t.length
    pure (trailingElems t kind bodyStartPos)
  | some lastChild =>
    pure (childNodes.flatMap (leadingElems t kind) ++ trailingElems t kind lastChild.endP)

/-- Cache key for the token table, standing for the object identity of the
cached node: real nodes are identified by their `id`, pseudo-nodes and
comment tokens by their kind and span. -/
inductive TokenKey where
  | nodeKey (id : Nat)
  | listKey (k : CommentListKind) (fullStart pos endPos : Nat)
  | tokKey (k : SyntaxKind) (fullStart pos endPos : Nat)
deriving DecidableEq, Repr

def elKey : TsElement → TokenKey
  | .node n => .nodeKey n.id
  | .commentList c => .listKey c.commentListKind c.fullStart c.pos c.endPos
  | .commentTok c => .tokKey c.kind c.fullStart c.pos c.endPos

/-- The two association tables of the memoization layer (`childrenSaver`,
`tokenSaver`), keyed by node identity. -/
structure CacheState where
  childrenSaver : List (Nat × List TsElement)
  tokenSaver : List (TokenKey × List TsElement)

def lookupChildren (st : CacheState) (id : Nat) : Option (List TsElement) :=
  ((st.childrenSaver.find? (fun e => e.1 = id)).map Prod.snd)

def lookupTokens (st : CacheState) (k : TokenKey) : Option (List TsElement) :=
  ((st.tokenSaver.find? (fun e => e.1 = k)).map Prod.snd)

/-- The source's `CommentNodeParser.getOrParseChildren`: a syntax-list lookup
is redirected to the list's parent (passed explicitly, standing for
`container.parent`); a cache miss computes `getNodes` once and stores it. -/
def getOrParseChildren (t : List Char) (st : CacheState) (container parent : TsNode) :
    Except CommentParserError (List TsElement × CacheState) :=
  let c := if container.kind = SyntaxKind.SyntaxList then parent else container
  match lookupChildren st c.id with
  | some v => .ok (v, st)
  | none => do
    let v ← getNodes t c
    .ok (v, ⟨(c.id, v) :: st.childrenSaver, st.tokenSaver⟩)

/-- The source's `isChildSyntaxList`: a syntax list directly under a
statement container, or the syntax list immediately following the open brace
of a brace container (`child === node` is object identity, modelled by the
`id` field). -/
def isChildSyntaxListIn (node parent : TsNode) : Bool :=
  if statementContainerKinds.contains parent.kind then true
  else if !(declarationBodyKinds.contains parent.kind) then false
  else
    match afterBraceSyntaxList parent.children with
    | some c => c.id = node.id
    | none => false

/-- The next structural sibling after the syntax list in its parent's
children (`children[children.indexOf(syntaxList) + 1]`, with JS `indexOf`
identity modelled by `id`; an absent list gives index `-1` and hence the
first child, as in the source). -/
def cslNextChild (syntaxList parent : TsNode) : Option TsNode :=
  (parent.children.get?
    (((parent.children.findIdx? (fun c => c.id = syntaxList.id)).map (· + 1)).getD 0))

/-- The source's `getSearchEnd` in `parseChildSyntaxList`: the parent's end
for a source file; the offset just before a next close-brace sibling's end;
otherwise the end of the source text (`sourceFile.end`, the text length). -/
def getSearchEnd (t : List Char) (syntaxList parent : TsNode) : Nat :=
  if parent.kind = .SourceFile then parent.endP
  else
    match cslNextChild syntaxList parent with
    | some nextChild =>
      if nextChild.kind = .CloseBraceToken then nextChild.endP - 1 else t.length
    | none => t.length

/-- The per-child loop of `parseChildSyntaxList`: scan comments from the
previous boundary, stopping before a comment that coincides with the child's
scanning-significant start, then yield the child and move the boundary to
its end. -/
def parseCSLLoop (t : List Char) : Nat → List TsElement → List TsElement
  | _, [] => []
  | lastEnd, child :: rest =>
    let childStart := elChildStart child
    let comments :=
      ((scanUntilToken t ⟨lastEnd, lastEnd⟩).1.takeWhile (fun cm => cm.pos ≠ childStart))
    comments.map TsElement.commentTok ++ child :: parseCSLLoop t (elEnd child) rest

/-- The trailing scan of `parseChildSyntaxList`: comments after the last
child, kept while their position is at or before the search end. -/
def cslTrailing (t : List Char) (syntaxList parent : TsNode) (lastPos : Nat) :
    List CommentTok :=
  ((scanUntilToken t ⟨lastPos, lastPos⟩).1.takeWhile
    (fun cm => cm.pos ≤ getSearchEnd t syntaxList parent))

/-- The source's `parseChildSyntaxList`: interleave the spliced children of
the list's container with scanned comments, then append the bounded trailing
comments. -/
def parseChildSyntaxList (t : List Char) (st : CacheState) (syntaxList parent : TsNode) :
    Except CommentParserError (List TsElement × CacheState) := do
  let r ← getOrParseChildren t st syntaxList parent
  let children := r.1
  let lastPos := ((children.getLast?.map elEnd).getD syntaxList.pos)
  .ok (parseCSLLoop t syntaxList.pos children
        ++ (cslTrailing t syntaxList parent lastPos).map TsElement.commentTok, r.2)

/-- The per-child loop of `parseNode`: scan the gap before each child (except
an end-of-file sentinel), tracking the boundary with the syntax-list
adjustment of the source. -/
def parseNodeLoop (t : List Char) (parentNode : TsNode) : Nat → List TsNode → List TsElement
  | _, [] => []
  | lastEnd, child :: rest =>
    let childIsSyntaxList :=
      child.kind = SyntaxKind.SyntaxList && isChildSyntaxListIn child parentNode
    let comments :=
      if child.kind = SyntaxKind.EndOfFileToken then []
      else
        let stopPos := if childIsSyntaxList then child.pos else child.strt
        ((scanUntilToken t ⟨lastEnd, lastEnd⟩).1.takeWhile (fun cm => cm.pos ≤ stopPos))
    let newLastEnd :=
      match rest.head? with
      | some nextChild => if childIsSyntaxList then nextChild.strt else child.endP
      | none => child.endP
    comments.map TsElement.commentTok ++ TsElement.node child :: parseNodeLoop t parentNode newLastEnd rest

/-- The source's `parseNode`: a node with at most one child is returned as
its children; otherwise the first child is yielded and the loop interleaves
comments between the rest. -/
def parseNode (t : List Char) (n : TsNode) : List TsElement :=
  match n.children with
  | [] => []
  | [c] => [TsElement.node c]
  | c0 :: rest => TsElement.node c0 :: parseNodeLoop t n c0.endP rest

/-- The inner `getTokens` of `getOrParseTokens`: a comment-list pseudo-node
returns its member tokens; a child syntax list is parsed by
`parseChildSyntaxList`; every other node falls back to `parseNode`. -/
def getTokens (t : List Char) (st : CacheState) (el : TsElement) (parent : TsNode) :
    Except CommentParserError (List TsElement × CacheState) :=
  match el with
  | .commentList c => .ok (c.comments.map TsElement.commentTok, st)
  | .node n =>
    if n.kind = SyntaxKind.SyntaxList && isChildSyntaxListIn n parent then
      parseChildSyntaxList t st n parent
    else .ok (parseNode t n, st)
  | .commentTok _ => .ok ([], st)

/-- The source's `CommentNodeParser.getOrParseTokens`: a read-through cache
over `getTokens`, keyed by node identity. -/
def getOrParseTokens (t : List Char) (st : CacheState) (el : TsElement) (parent : TsNode) :
    Except CommentParserError (List TsElement × CacheState) :=
  match lookupTokens st (elKey el) with
  | some v => .ok (v, st)
  | none => do
    let r ← getTokens t st el parent
    .ok (r.1, ⟨r.2.childrenSaver, (elKey el, r.1) :: r.2.tokenSaver⟩)

/-- Tokens of a group all lie between `lo` and `hi`, each with positive
width. -/
def toksBounded (lo hi : Nat) (g : List CommentTok) : Prop :=
  ∀ tok ∈ g, lo ≤ tok.pos ∧ tok.pos < tok.endPos ∧ tok.endPos ≤ hi

/-- Consecutive tokens of a group do not overlap. -/
def tokChain (g : List CommentTok) : Prop :=
  g.Chain' (fun a b => a.endPos ≤ b.pos)

/-- The groups produced by a scan occupy consecutive disjoint windows
between `lo` and `hi`. -/
def ChainedGroups (lo : Nat) : List (List CommentTok) → Nat → Prop
  | [] => fun hi => lo ≤ hi
  | g :: rest => fun hi =>
    ∃ mid, g ≠ [] ∧ tokChain g ∧ toksBounded lo mid g ∧ ChainedGroups mid rest hi

/-- Start/end spans of the elements of a computed sequence. -/
def elSpans (l : List TsElement) : List (Nat × Nat) :=
  l.map (fun e => (elStart e, elEnd e))

/-- Do the given spans tile the interval from `lo` to `hi` exactly, with no
gap and no overlap? -/
def tiles : Nat → List (Nat × Nat) → Nat → Bool
  | lo, [], hi => lo == hi
  | lo, sp :: rest, hi => (lo == sp.1) && tiles sp.2 rest hi

/-- Source text of the empty-object-literal example `{ /* only */ }`. -/
def exOnlyText : List Char :=
  ['{', ' ', '/', '*', ' ', 'o', 'n', 'l', 'y', ' ', '*', '/', ' ', '}']

/-- Open-brace token of the example object literal. -/
def exOnlyBrace : TsNode := .mk 1 .OpenBraceToken 0 0 1 none []

/-- Empty member syntax list of the example object literal. -/
def exOnlyList : TsNode := .mk 2 .SyntaxList 1 1 1 none []

/-- Close-brace token of the example object literal. -/
def exOnlyCloseBrace : TsNode := .mk 3 .CloseBraceToken 13 13 14 none []

/-- The example object literal node over `exOnlyText`. -/
def exOnlyObj : TsNode :=
  .mk 0 .ObjectLiteralExpression 0 0 14 none [exOnlyBrace, exOnlyList, exOnlyCloseBrace]

/-- The single comment token of the example. -/
def exOnlyTok : CommentTok := ⟨.MultiLineCommentTrivia, 1, 2, 12⟩

/-- The comment-list pseudo-node computed for the example. -/
def exOnlyCommentList : CommentList := ⟨.ObjectLiteralElement, 1, 2, 12, [exOnlyTok]⟩

/-- The computed child sequence of the example object literal. -/
def exOnlyChildren : List TsElement := [TsElement.commentList exOnlyCommentList]

/-- Source text `x;(\n)(\n)y;` of the coverage counterexample: a blank line
separates the two statements, so their spans leave a gap. -/
def gapText : List Char := ['x', ';', '\n', '\n', 'y', ';']

/-- First statement of the coverage counterexample. -/
def gapX : TsNode := .mk 2 .Other 0 0 2 none []

/-- Second statement of the coverage counterexample (full start 2, token
start 4 after the blank line). -/
def gapY : TsNode := .mk 3 .Other 2 4 6 none []

/-- Source-file container of the coverage counterexample. -/
def gapFile : TsNode :=
  .mk 0 .SourceFile 0 0 6 none
    [.mk 1 .SyntaxList 0 0 6 none [gapX, gapY], .mk 4 .EndOfFileToken 6 6 6 none []]

/-- Computed child sequence of `gapFile`. -/
def gapOut : List TsElement := [TsElement.node gapX, TsElement.node gapY]

/-- Cache state after computing the children of `gapFile`. -/
def gapCache : CacheState := ⟨[(0, gapOut)], []⟩

/-- Source text `x;(\n)// c(\n)y;`: a comment line between two statements. -/
def cmtText : List Char := ['x', ';', '\n', '/', '/', ' ', 'c', '\n', 'y', ';']

/-- First statement of the comment-line example. -/
def cmtX : TsNode := .mk 2 .Other 0 0 2 none []

/-- Second statement of the comment-line example. -/
def cmtY : TsNode := .mk 3 .Other 2 8 10 none []

/-- Source-file container of the comment-line example. -/
def cmtFile : TsNode :=
  .mk 0 .SourceFile 0 0 10 none
    [.mk 1 .SyntaxList 0 0 10 none [cmtX, cmtY], .mk 4 .EndOfFileToken 10 10 10 none []]

/-- The comment-list pseudo-node computed between the two statements. -/
def cmtList : CommentList := ⟨.Statement, 2, 3, 7, [⟨.SingleLineCommentTrivia, 2, 3, 7⟩]⟩

/-- Computed child sequence of `cmtFile`. -/
def cmtOut : List TsElement :=
  [TsElement.node cmtX, TsElement.commentList cmtList, TsElement.node cmtY]

/-- An interface declaration with no children at all: no open-brace token
and no syntax-list placeholder. -/
def ifaceNoList : TsNode := .mk 50 .InterfaceDeclaration 0 0 5 none []

/-- A node of a kind outside the recognized container set. -/
def otherKindNode : TsNode := .mk 51 .Other 0 0 1 none []

/-- Source text `/** d */(\n)x;`: a documentation comment before a
statement. -/
def jsdocText : List Char := ['/', '*', '*', ' ', 'd', ' ', '*', '/', '\n', 'x', ';']

theorem charAt_ne_null_lt (t : List Char) (p : Nat) (h : charAt t p ≠ nullChar) :
    p < t.length := by
  by_contra hh
  push_neg at hh
  apply h
  simp [charAt, List.getD_eq_getElem?_getD, List.getElem?_eq_none hh]

theorem isCommentStart_lt (t : List Char) (p : Nat) (h : isCommentStart t p = true) :
    p + 1 < t.length := by
  simp only [isCommentStart, Bool.and_eq_true, Bool.or_eq_true, decide_eq_true_eq] at h
  rcases h with ⟨-, h2 | h2⟩ <;>
    · apply charAt_ne_null_lt
      rw [h2]
      decide

theorem findCharFrom_bounds (t : List Char) (c : Char) (p : Nat) (hp : p ≤ t.length) :
    p ≤ findCharFrom t c p ∧ findCharFrom t c p ≤ t.length := by
  unfold findCharFrom
  cases h : (t.drop p).findIdx? (fun x => x = c) with
  | none => dsimp only; omega
  | some i =>
    dsimp only
    rw [List.findIdx?_eq_some_iff_findIdx_eq] at h
    have : i < t.length - p := by
      have h1 := h.1
      rwa [List.length_drop] at h1
    omega

theorem findCloseCommentFrom_bounds (t : List Char) (p : Nat) (hp : p ≤ t.length) :
    p ≤ findCloseCommentFrom t p ∧ findCloseCommentFrom t p ≤ t.length := by
  unfold findCloseCommentFrom
  cases h : ((t.drop p).zip (t.drop (p + 1))).findIdx? (fun x => x.1 = '*' && x.2 = '/') with
  | none => dsimp only; omega
  | some i =>
    dsimp only
    rw [List.findIdx?_eq_some_iff_findIdx_eq] at h
    have h1 := h.1
    rw [List.length_zip] at h1
    simp only [List.length_drop] at h1
    omega

theorem commentEndFrom_bounds (t : List Char) (p : Nat) (h : isCommentStart t p = true) :
    p < commentEndFrom t p ∧ commentEndFrom t p ≤ t.length := by
  have hlt := isCommentStart_lt t p h
  unfold commentEndFrom
  split
  · have := findCharFrom_bounds t '\n' (p + 2) (by omega)
    omega
  · have := findCloseCommentFrom_bounds t (p + 2) (by omega)
    omega

theorem getLineStartFromPos_le (t : List Char) (p : Nat) : getLineStartFromPos t p ≤ p := by
  induction p with
  | zero => simp [getLineStartFromPos]
  | succ q ih =>
    rw [getLineStartFromPos]
    split
    · exact le_refl _
    · omega

theorem maxEndFor_le (t : List Char) (p : Nat) : maxEndFor t p ≤ p := by
  unfold maxEndFor
  split
  · exact le_refl _
  · exact getLineStartFromPos_le t p

theorem scanUntilNewLineOrTokenAux_le (t : List Char) :
    ∀ fuel fs p, p ≤ (scanUntilNewLineOrTokenAux t fuel fs p).pos := by
  intro fuel
  induction fuel with
  | zero => intro fs p; simp [scanUntilNewLineOrTokenAux]
  | succ n ih =>
    intro fs p
    rw [scanUntilNewLineOrTokenAux]
    split
    · split
      · exact le_refl _
      · split
        · exact le_trans (by omega) (ih fs (p + 1))
        · split
          · split
            · rename_i hlt hnl hsp hcs htr
              have := commentEndFrom_bounds t p hcs
              exact le_trans (by omega) (ih (commentEndFrom t p) (commentEndFrom t p))
            · exact le_refl _
          · exact le_refl _
    · exact le_refl _

theorem scanUntilNewLineOrToken_le (t : List Char) (s : ScannerState) :
    s.pos ≤ (scanUntilNewLineOrToken t s).pos :=
  scanUntilNewLineOrTokenAux_le t (t.length + 1) s.fullStart s.pos

theorem skipTrailingLineAux_le (t : List Char) :
    ∀ fuel s, s.pos ≤ (skipTrailingLineAux t fuel s).pos := by
  intro fuel
  induction fuel with
  | zero => intro s; simp [skipTrailingLineAux]
  | succ n ih =>
    intro s
    rw [skipTrailingLineAux]
    have h1 := scanUntilNewLineOrToken_le t s
    split
    · have h2 := ih ⟨(scanUntilNewLineOrToken t s).fullStart,
        (scanUntilNewLineOrToken t s).pos + 1⟩
      dsimp only at h2
      omega
    · exact h1

theorem skipTrailingLine_le (t : List Char) (s : ScannerState) :
    s.pos ≤ (skipTrailingLine t s).pos := by
  unfold skipTrailingLine
  split
  · exact le_refl _
  · exact skipTrailingLineAux_le t (t.length + 1) s

theorem scanForNewLinesAux_bounds (t : List Char) :
    ∀ fuel fs p nl first,
      p ≤ (scanForNewLinesAux t fuel fs p nl first).2.pos ∧
      toksBounded p (scanForNewLinesAux t fuel fs p nl first).2.pos
        (scanForNewLinesAux t fuel fs p nl first).1 ∧
      tokChain (scanForNewLinesAux t fuel fs p nl first).1 := by
  intro fuel
  induction fuel with
  | zero =>
    intro fs p nl first
    refine ⟨le_refl _, ?_, ?_⟩ <;> simp [scanForNewLinesAux, toksBounded, tokChain]
  | succ n ih =>
    intro fs p nl first
    rw [scanForNewLinesAux]
    split
    · split
      · have h := ih fs (p + 1) (nl + 1) first
        refine ⟨by omega, ?_, h.2.2⟩
        intro tok htok
        have := h.2.1 tok htok
        omega
      · split
        · have h := ih fs (p + 1) nl first
          refine ⟨by omega, ?_, h.2.2⟩
          intro tok htok
          have := h.2.1 tok htok
          omega
        · split
          · split
            · refine ⟨le_refl _, ?_, ?_⟩ <;> simp [toksBounded, tokChain]
            · rename_i hlt hnl hsp hcs hstop
              have hce := commentEndFrom_bounds t p hcs
              have h := ih (commentEndFrom t p) (commentEndFrom t p) 0 false
              dsimp only
              refine ⟨by omega, ?_, ?_⟩
              · intro tok htok
                rcases List.mem_cons.mp htok with rfl | hmem
                · have h1 := h.1
                  dsimp only
                  exact ⟨le_refl _, by omega, by omega⟩
                · have := h.2.1 tok hmem
                  omega
              · rw [tokChain, List.chain'_cons']
                refine ⟨?_, h.2.2⟩
                intro y hy
                have := h.2.1 y (List.mem_of_mem_head? hy)
                dsimp only
                omega
          · refine ⟨le_refl _, ?_, ?_⟩ <;> simp [toksBounded, tokChain]
    · refine ⟨le_refl _, ?_, ?_⟩ <;> simp [toksBounded, tokChain]

theorem scanForNewLines_bounds (t : List Char) (s : ScannerState) :
    s.pos ≤ (scanForNewLines t s).2.pos ∧
    toksBounded s.pos (scanForNewLines t s).2.pos (scanForNewLines t s).1 ∧
    tokChain (scanForNewLines t s).1 :=
  scanForNewLinesAux_bounds t (t.length + 1) s.fullStart s.pos 0 true

theorem chainedGroups_le (lo : Nat) :
    ∀ (groups : List (List CommentTok)) (hi : Nat), ChainedGroups lo groups hi → lo ≤ hi := by
  intro groups
  induction groups generalizing lo with
  | nil => intro hi h; exact h
  | cons g rest ih =>
    intro hi h
    obtain ⟨mid, hne, -, hb, hrest⟩ := h
    have hmid := ih mid hi hrest
    match g, hne with
    | tok :: g2, _ =>
      have := hb tok (List.mem_cons_self _ _)
      omega

theorem getLeadingCommentsAux_chained (t : List Char) (stopAtJsDoc : Bool) :
    ∀ fuel (s : ScannerState),
      ChainedGroups s.pos (getLeadingCommentsAux t stopAtJsDoc fuel s).1
        (getLeadingCommentsAux t stopAtJsDoc fuel s).2.pos := by
  intro fuel
  induction fuel with
  | zero =>
    intro s
    simp [getLeadingCommentsAux, ChainedGroups]
  | succ n ih =>
    intro s
    rw [getLeadingCommentsAux]
    have hb := scanForNewLines_bounds t s
    split
    · exact hb.1
    · split
      · exact hb.1
      · rename_i hne hjs
        dsimp only
        refine ⟨(scanForNewLines t s).2.pos, ?_, hb.2.2, hb.2.1, ih (scanForNewLines t s).2⟩
        intro hcon
        rw [hcon] at hne
        simp at hne

theorem getLeadingComments_chained (t : List Char) (stopAtJsDoc : Bool) (s : ScannerState) :
    ChainedGroups s.pos (getLeadingComments t stopAtJsDoc s).1
      (getLeadingComments t stopAtJsDoc s).2.pos :=
  getLeadingCommentsAux_chained t stopAtJsDoc (t.length + 1) s

theorem chain_head_lt_last :
    ∀ (g2 : List CommentTok) (tok : CommentTok), tokChain (tok :: g2) →
      (∀ x ∈ tok :: g2, x.pos < x.endPos) →
      tok.pos < ((((tok :: g2).getLast?).map CommentTok.endPos).getD 0) := by
  intro g2
  induction g2 with
  | nil =>
    intro tok hch hlt
    have := hlt tok (List.mem_cons_self _ _)
    simpa using this
  | cons tok2 g3 ih =>
    intro tok hch hlt
    rw [tokChain, List.chain'_cons] at hch
    have h2 := ih tok2 hch.2 (fun x hx => hlt x (List.mem_cons_of_mem _ hx))
    have h1 := hlt tok (List.mem_cons_self _ _)
    rw [List.getLast?_cons_cons]
    omega

theorem mkCommentList_bounds (kind : CommentListKind) (g : List CommentTok) (lo hi : Nat)
    (hne : g ≠ []) (hch : tokChain g) (hb : toksBounded lo hi g) :
    lo ≤ (mkCommentList kind g).pos ∧ (mkCommentList kind g).pos < (mkCommentList kind g).endPos
      ∧ (mkCommentList kind g).endPos ≤ hi := by
  match g, hne with
  | tok :: g2, _ =>
    have hhead := hb tok (List.mem_cons_self _ _)
    have hlast : ∀ a, (tok :: g2).getLast? = some a → a.endPos ≤ hi := by
      intro a ha
      exact (hb a (List.mem_of_getLast?_eq_some ha)).2.2
    have hlt := chain_head_lt_last g2 tok hch (fun x hx => ((hb x hx).2.1 : _))
    cases hl : (tok :: g2).getLast? with
    | none => simp [List.getLast?_eq_some_iff] at hl
    | some a =>
      have := hlast a hl
      rw [hl] at hlt
      simp only [mkCommentList, List.head?_cons, Option.map_some', Option.getD_some, hl]
      exact ⟨hhead.1, by simpa using hlt, by simpa using this⟩

theorem chainedGroups_lists (kind : CommentListKind) :
    ∀ (groups : List (List CommentTok)) (lo hi : Nat), ChainedGroups lo groups hi →
      (∀ l ∈ groups.map (mkCommentList kind), lo ≤ l.pos ∧ l.pos < l.endPos ∧ l.endPos ≤ hi)
      ∧ (groups.map (mkCommentList kind)).Pairwise (fun a b => a.endPos ≤ b.pos) := by
  intro groups
  induction groups with
  | nil => intro lo hi _; simp
  | cons g rest ih =>
    intro lo hi h
    obtain ⟨mid, hne, hch, hb, hrest⟩ := h
    have hmid : lo ≤ mid := by
      match g, hne with
      | tok :: g2, _ =>
        have := hb tok (List.mem_cons_self _ _)
        omega
    have hmk := mkCommentList_bounds kind g lo mid hne hch hb
    have hIH := ih mid hi hrest
    have hhi : mid ≤ hi := chainedGroups_le mid rest hi hrest
    constructor
    · intro l hl
      rcases List.mem_cons.mp hl with rfl | hmem
      · exact ⟨hmk.1, hmk.2.1, by omega⟩
      · have := hIH.1 l hmem
        exact ⟨by omega, this.2.1, this.2.2⟩
    · rw [List.map_cons, List.pairwise_cons]
      refine ⟨?_, hIH.2⟩
      intro l hl
      have := hIH.1 l hl
      omega

theorem chainedGroups_toks (lo : Nat) :
    ∀ (groups : List (List CommentTok)) (hi : Nat), ChainedGroups lo groups hi →
      ∀ g ∈ groups, ∀ tok ∈ g, lo ≤ tok.pos := by
  intro groups
  induction groups generalizing lo with
  | nil => intro hi _ g hg; simp at hg
  | cons g0 rest ih =>
    intro hi h g hg tok htok
    obtain ⟨mid, hne, hch, hb, hrest⟩ := h
    rcases List.mem_cons.mp hg with rfl | hmem
    · exact (hb tok htok).1
    · have hmid : lo ≤ mid := by
        match g0, hne with
        | tok2 :: g2, _ =>
          have := hb tok2 (List.mem_cons_self _ _)
          omega
      have := ih mid hi hrest g hmem tok htok
      omega

theorem getCommentNodes_bounds (t : List Char) (kind : CommentListKind) (stopAtJsDoc : Bool)
    (s : ScannerState) :
    s.pos ≤ (getCommentNodes t kind stopAtJsDoc s).2.pos ∧
    (∀ l ∈ (getCommentNodes t kind stopAtJsDoc s).1,
       (skipTrailingLine t s).pos ≤ l.pos ∧ l.pos < l.endPos ∧
       l.endPos ≤ (getCommentNodes t kind stopAtJsDoc s).2.pos) ∧
    (getCommentNodes t kind stopAtJsDoc s).1.Pairwise (fun a b => a.endPos ≤ b.pos) := by
  have hskip := skipTrailingLine_le t s
  have hcg := getLeadingComments_chained t stopAtJsDoc (skipTrailingLine t s)
  have hle := chainedGroups_le _ _ _ hcg
  have hls := chainedGroups_lists kind _ _ _ hcg
  simp only [getCommentNodes]
  refine ⟨by omega, ?_, List.Pairwise.filter _ hls.2⟩
  intro l hl
  have hmem := List.mem_of_mem_filter hl
  exact hls.1 l hmem

theorem getCommentNodes_comments_lo (t : List Char) (kind : CommentListKind)
    (stopAtJsDoc : Bool) (s : ScannerState) :
    ∀ l ∈ (getCommentNodes t kind stopAtJsDoc s).1, ∀ tok ∈ l.comments,
      (skipTrailingLine t s).pos ≤ tok.pos := by
  have hcg := getLeadingComments_chained t stopAtJsDoc (skipTrailingLine t s)
  intro l hl tok htok
  simp only [getCommentNodes] at hl
  have hmem := List.mem_of_mem_filter hl
  rw [List.mem_map] at hmem
  obtain ⟨g, hg, rfl⟩ := hmem
  have hcom : (mkCommentList kind g).comments = g := rfl
  rw [hcom] at htok
  exact chainedGroups_toks _ _ _ hcg g hg tok htok

theorem trailingElems_props (t : List Char) (kind : CommentListKind) (p : Nat) :
    (trailingElems t kind p).Chain' (fun a b => elEnd a ≤ elStart b ∧ elStart a < elStart b) ∧
    ∀ e ∈ trailingElems t kind p, p ≤ elStart e ∧ elStart e < elEnd e ∧
      elEnd e ≤ (getCommentNodes t kind false ⟨p, p⟩).2.pos := by
  have hb := getCommentNodes_bounds t kind false ⟨p, p⟩
  have hsk := skipTrailingLine_le t ⟨p, p⟩
  dsimp only at hsk
  constructor
  · rw [trailingElems, List.chain'_map]
    apply List.Pairwise.chain'
    apply List.Pairwise.imp_of_mem ?_ hb.2.2
    intro a b ha hbmem hr
    have h1 := hb.2.1 a ha
    have h2 := hb.2.1 b hbmem
    simp only [elStart, elEnd]
    omega
  · intro e he
    rw [trailingElems, List.mem_map] at he
    obtain ⟨l, hl, rfl⟩ := he
    have := hb.2.1 l hl
    simp only [elStart, elEnd]
    omega

theorem leadingElems_props (t : List Char) (kind : CommentListKind) (c : TsNode)
    (h1 : c.pos ≤ c.strt) (h2 : c.strt < c.endP)
    (hsig : (getCommentNodes t kind true ⟨c.pos, c.pos⟩).2.pos ≤ c.strt) :
    (leadingElems t kind c).Chain' (fun a b => elEnd a ≤ elStart b ∧ elStart a < elStart b) ∧
    (∀ e ∈ leadingElems t kind c, c.pos ≤ elStart e ∧ elStart e < elEnd e ∧ elEnd e ≤ c.endP) ∧
    (leadingElems t kind c).getLast? = some (.node c) := by
  have hb := getCommentNodes_bounds t kind true ⟨c.pos, c.pos⟩
  have hsk := skipTrailingLine_le t ⟨c.pos, c.pos⟩
  dsimp only at hsk hb
  have hlist : ∀ l ∈ (getCommentNodes t kind true ⟨c.pos, c.pos⟩).1,
      c.pos ≤ l.pos ∧ l.pos < l.endPos ∧ l.endPos ≤ c.strt := by
    intro l hl
    have := hb.2.1 l hl
    omega
  refine ⟨?_, ?_, List.getLast?_concat _⟩
  · rw [leadingElems, List.chain'_append]
    refine ⟨?_, List.chain'_singleton _, ?_⟩
    · rw [List.chain'_map]
      apply List.Pairwise.chain'
      apply List.Pairwise.imp_of_mem ?_ hb.2.2
      intro a b ha hbmem hr
      have ha2 := hb.2.1 a ha
      have hb2 := hb.2.1 b hbmem
      simp only [elStart, elEnd]
      omega
    · intro x hx y hy
      simp only [List.head?_cons, Option.mem_def, Option.some.injEq] at hy
      subst hy
      rw [List.getLast?_map] at hx
      simp only [Option.mem_def, Option.map_eq_some'] at hx
      obtain ⟨l, hl, rfl⟩ := hx
      have := hlist l (List.mem_of_getLast?_eq_some hl)
      simp only [elStart, elEnd]
      omega
  · intro e he
    rw [leadingElems, List.mem_append] at he
    rcases he with he | he
    · rw [List.mem_map] at he
      obtain ⟨l, hl, rfl⟩ := he
      have := hlist l hl
      simp only [elStart, elEnd]
      omega
    · simp only [List.mem_singleton] at he
      subst he
      simp only [elStart, elEnd]
      omega

theorem flatMapLeading_props (t : List Char) (kind : CommentListKind) :
    ∀ (children : List TsNode) (T : List TsElement) (bt : Nat),
      (∀ c ∈ children, c.pos ≤ c.strt ∧ c.strt < c.endP ∧
          (getCommentNodes t kind true ⟨c.pos, c.pos⟩).2.pos ≤ c.strt) →
      children.Chain' (fun a b => a.endP ≤ b.pos) →
      T.Chain' (fun a b => elEnd a ≤ elStart b ∧ elStart a < elStart b) →
      (∀ e ∈ T, bt ≤ elStart e ∧ elStart e < elEnd e) →
      (∀ c, children.getLast? = some c → c.endP ≤ bt) →
      (children.flatMap (leadingElems t kind) ++ T).Chain'
          (fun a b => elEnd a ≤ elStart b ∧ elStart a < elStart b)
      ∧ ∀ e ∈ children.flatMap (leadingElems t kind) ++ T,
          (match children.head? with | some c0 => c0.pos | none => bt) ≤ elStart e
          ∧ elStart e < elEnd e := by
  intro children
  induction children with
  | nil =>
    intro T bt hcs hch hT hT2 hlast
    simpa using ⟨hT, hT2⟩
  | cons c cs ih =>
    intro T bt hcs hch hT hT2 hlast
    have hc := hcs c (List.mem_cons_self _ _)
    have hblk := leadingElems_props t kind c hc.1 hc.2.1 hc.2.2
    have hlast2 : ∀ c2, cs.getLast? = some c2 → c2.endP ≤ bt := by
      intro c2 h2
      apply hlast
      cases cs with
      | nil => simp at h2
      | cons c3 cs3 => rw [List.getLast?_cons_cons]; exact h2
    have hIH := ih T bt (fun x hx => hcs x (List.mem_cons_of_mem _ hx)) hch.tail hT hT2 hlast2
    have hlb : c.endP ≤ (match cs.head? with | some c0 => c0.pos | none => bt) := by
      cases cs with
      | nil =>
        simp only [List.head?_nil]
        exact hlast c (by simp)
      | cons c2 cs2 =>
        simp only [List.head?_cons]
        exact (List.chain'_cons.mp hch).1
    have hassoc : (c :: cs).flatMap (leadingElems t kind) ++ T
        = leadingElems t kind c ++ (cs.flatMap (leadingElems t kind) ++ T) := by
      simp [List.flatMap_cons, List.append_assoc]
    rw [hassoc]
    constructor
    · rw [List.chain'_append]
      refine ⟨hblk.1, hIH.1, ?_⟩
      intro x hx y hy
      rw [hblk.2.2] at hx
      simp only [Option.mem_def, Option.some.injEq] at hx
      subst hx
      have hy2 := hIH.2 y (List.mem_of_mem_head? hy)
      have he1 : elEnd (TsElement.node c) = c.endP := rfl
      have he2 : elStart (TsElement.node c) = c.strt := rfl
      rw [he1, he2]
      have := hc.2.1
      omega
    · intro e he
      rw [List.mem_append] at he
      simp only [List.head?_cons]
      rcases he with he | he
      · have := hblk.2.1 e he
        exact ⟨this.1, this.2.1⟩
      · have := hIH.2 e he
        have h2 : c.pos < (match cs.head? with | some c0 => c0.pos | none => bt) := by
          have := hc.1
          have := hc.2.1
          omega
        omega

theorem exceptBindOk {α β : Type} (a : α) (f : α → Except CommentParserError β) :
    (Except.ok a >>= f) = f a := rfl

theorem exceptBindError {α β : Type} (e : CommentParserError)
    (f : α → Except CommentParserError β) :
    ((Except.error e : Except CommentParserError α) >>= f) = Except.error e := rfl

theorem getNodes_props (t : List Char) (container : TsNode) (childNodes : List TsNode)
    (kind : CommentListKind) (out : List TsElement)
    (hch : getContainerChildren container = .ok childNodes)
    (hk : getCommentListKind container = .ok kind)
    (hout : getNodes t container = .ok out)
    (h1 : ∀ c ∈ childNodes, c.pos ≤ c.strt ∧ c.strt < c.endP)
    (h2 : childNodes.Chain' (fun a b => a.endP ≤ b.pos))
    (h3 : ∀ c ∈ childNodes, (getCommentNodes t kind true ⟨c.pos, c.pos⟩).2.pos ≤ c.strt) :
    out.Chain' (fun a b => elEnd a ≤ elStart b ∧ elStart a < elStart b) := by
  unfold getNodes at hout
  rw [hch, hk, exceptBindOk, exceptBindOk] at hout
  cases hlast : childNodes.getLast? with
  | none =>
    rw [hlast] at hout
    dsimp only at hout
    cases hbp : getContainerBodyPos container t.length with
    | error e => rw [hbp, exceptBindError] at hout; exact absurd hout (by simp)
    | ok bp =>
      rw [hbp, exceptBindOk] at hout
      have hout2 : trailingElems t kind bp = out := Except.ok.inj hout
      subst hout2
      exact (trailingElems_props t kind bp).1
  | some lastChild =>
    rw [hlast] at hout
    dsimp only at hout
    have hout2 : childNodes.flatMap (leadingElems t kind)
        ++ trailingElems t kind lastChild.endP = out := Except.ok.inj hout
    subst hout2
    have hT := trailingElems_props t kind lastChild.endP
    refine (flatMapLeading_props t kind childNodes _ lastChild.endP
      (fun c hc => ⟨(h1 c hc).1, (h1 c hc).2, h3 c hc⟩) h2 hT.1 ?_ ?_).1
    · intro e he
      have := hT.2 e he
      exact ⟨this.1, this.2.1⟩
    · intro c hc
      rw [hlast] at hc
      simp only [Option.some.injEq] at hc
      subst hc
      exact le_refl _

theorem flatMapLeading_upper (t : List Char) (kind : CommentListKind) :
    ∀ (children : List TsNode) (T : List TsElement) (hi : Nat),
      (∀ c ∈ children, c.pos ≤ c.strt ∧ c.strt < c.endP ∧
          (getCommentNodes t kind true ⟨c.pos, c.pos⟩).2.pos ≤ c.strt ∧ c.endP ≤ hi) →
      (∀ e ∈ T, elEnd e ≤ hi) →
      ∀ e ∈ children.flatMap (leadingElems t kind) ++ T, elEnd e ≤ hi := by
  intro children
  induction children with
  | nil =>
    intro T hi hcs hT e he
    simp only [List.flatMap_nil, List.nil_append] at he
    exact hT e he
  | cons c cs ih =>
    intro T hi hcs hT e he
    have hc := hcs c (List.mem_cons_self _ _)
    have hblk := leadingElems_props t kind c hc.1 hc.2.1 hc.2.2.1
    have hassoc : (c :: cs).flatMap (leadingElems t kind) ++ T
        = leadingElems t kind c ++ (cs.flatMap (leadingElems t kind) ++ T) := by
      simp [List.flatMap_cons, List.append_assoc]
    rw [hassoc, List.mem_append] at he
    rcases he with he | he
    · have := hblk.2.1 e he
      have := hc.2.2.2
      omega
    · exact ih T hi (fun x hx => hcs x (List.mem_cons_of_mem _ hx)) hT e he

/-- Claim C2: for every container, the elements (real children and
comment-list pseudo-nodes) of the computed child sequence returned by
`getOrParseChildren` are strictly increasing by start offset and their spans
are non-overlapping.  The hypotheses state that the container's real
children are well-formed for the source text: each child spans a non-empty
region after its full start, consecutive children do not overlap, and the
leading scan for each child stops at or before the child's token start. -/
theorem children_sequence_strictly_increasing (t : List Char) (st : CacheState)
    (container parent : TsNode) (childNodes : List TsNode) (kind : CommentListKind)
    (out : List TsElement) (st2 : CacheState)
    (hnsl : container.kind ≠ SyntaxKind.SyntaxList)
    (hmiss : lookupChildren st container.id = none)
    (hrun : getOrParseChildren t st container parent = .ok (out, st2))
    (hch : getContainerChildren container = .ok childNodes)
    (hk : getCommentListKind container = .ok kind)
    (h1 : ∀ c ∈ childNodes, c.pos ≤ c.strt ∧ c.strt < c.endP)
    (h2 : childNodes.Chain' (fun a b => a.endP ≤ b.pos))
    (h3 : ∀ c ∈ childNodes, (getCommentNodes t kind true ⟨c.pos, c.pos⟩).2.pos ≤ c.strt) :
    out.Chain' (fun a b => elEnd a ≤ elStart b ∧ elStart a < elStart b) := by
  unfold getOrParseChildren at hrun
  rw [if_neg hnsl] at hrun
  dsimp only at hrun
  rw [hmiss] at hrun
  dsimp only at hrun
  cases hgn : getNodes t container with
  | error e =>
    rw [hgn, exceptBindError] at hrun
    exact absurd hrun (by simp)
  | ok v =>
    rw [hgn, exceptBindOk] at hrun
    have hv : v = out := (Prod.mk.injEq _ _ _ _).mp (Except.ok.inj hrun) |>.1
    subst hv
    exact getNodes_props t container childNodes kind v hch hk hgn h1 h2 h3

/-- Witness for claim C2 at the concrete source file `x;(\n)// c(\n)y;`. -/
theorem children_sequence_strictly_increasing_witness :
    cmtOut.Chain' (fun a b => elEnd a ≤ elStart b ∧ elStart a < elStart b) :=
  children_sequence_strictly_increasing cmtText ⟨[], []⟩ cmtFile cmtFile [cmtX, cmtY]
    .Statement cmtOut ⟨[(0, cmtOut)], []⟩ (by decide) rfl rfl rfl rfl
    (by decide) (by rw [List.chain'_pair]; decide) (by decide)

/-- Claim C1 (counterexample): at the source file over `x;(\n)(\n)y;` the
computed child sequence is the two statements with spans `(0,2)` and
`(4,6)`, every header-line skip of the enumeration is empty (the
second-pass and trailing-pass skips do not move, and no trailing comma is
skipped), yet the spans do not tile the body span `0..6`: the blank line
`2..4` is covered by nothing, so concatenating the spans with the skipped
pieces does not reproduce the body span. -/
theorem coverage_counterexample :
    getNodes gapText gapFile = .ok gapOut
    ∧ elSpans gapOut = [(0, 2), (4, 6)]
    ∧ (skipTrailingLine gapText ⟨2, 2⟩).pos = 2
    ∧ (skipTrailingLine gapText ⟨6, 6⟩).pos = 6
    ∧ charAt gapText 2 ≠ ','
    ∧ charAt gapText 6 ≠ ','
    ∧ tiles 0 [(0, 2), (4, 6)] 6 = false
    ∧ tiles 0 [(0, 2), (2, 2), (4, 6)] 6 = false
    ∧ tiles 0 [(0, 2), (4, 6), (6, 6)] 6 = false :=
  ⟨rfl, rfl, rfl, rfl, by decide, by decide, rfl, rfl, rfl⟩

/-- Claim C1 (amended): the spans of the elements of a container's computed
child sequence are non-overlapping and lie within the container's body
span; gaps (whitespace, and comments discarded by the header-line skip, the
JSDoc rule or the ceiling clamp) may remain. -/
theorem coverage_amended (t : List Char) (container : TsNode) (childNodes : List TsNode)
    (kind : CommentListKind) (out : List TsElement) (bodyLo bodyHi : Nat)
    (hch : getContainerChildren container = .ok childNodes)
    (hk : getCommentListKind container = .ok kind)
    (hout : getNodes t container = .ok out)
    (h1 : ∀ c ∈ childNodes, c.pos ≤ c.strt ∧ c.strt < c.endP)
    (h2 : childNodes.Chain' (fun a b => a.endP ≤ b.pos))
    (h3 : ∀ c ∈ childNodes, (getCommentNodes t kind true ⟨c.pos, c.pos⟩).2.pos ≤ c.strt)
    (hlo : ∀ c ∈ childNodes, bodyLo ≤ c.pos)
    (hhi : ∀ c ∈ childNodes, c.endP ≤ bodyHi)
    (htrail : ∀ lc, childNodes.getLast? = some lc →
        (getCommentNodes t kind false ⟨lc.endP, lc.endP⟩).2.pos ≤ bodyHi)
    (hempty : ∀ bp, childNodes = [] → getContainerBodyPos container t.length = .ok bp →
        bodyLo ≤ bp ∧ (getCommentNodes t kind false ⟨bp, bp⟩).2.pos ≤ bodyHi) :
    out.Chain' (fun a b => elEnd a ≤ elStart b) ∧
    ∀ e ∈ out, bodyLo ≤ elStart e ∧ elEnd e ≤ bodyHi := by
  unfold getNodes at hout
  rw [hch, hk, exceptBindOk, exceptBindOk] at hout
  cases hlast : childNodes.getLast? with
  | none =>
    have hnil : childNodes = [] := List.getLast?_eq_none_iff.mp hlast
    rw [hlast] at hout
    dsimp only at hout
    cases hbp : getContainerBodyPos container t.length with
    | error e => rw [hbp, exceptBindError] at hout; exact absurd hout (by simp)
    | ok bp =>
      rw [hbp, exceptBindOk] at hout
      have hout2 : trailingElems t kind bp = out := Except.ok.inj hout
      subst hout2
      have hT := trailingElems_props t kind bp
      have hbpb := hempty bp hnil hbp
      refine ⟨hT.1.imp (fun a b h => h.1), ?_⟩
      intro e he
      have := hT.2 e he
      omega
  | some lastChild =>
    rw [hlast] at hout
    dsimp only at hout
    have hout2 : childNodes.flatMap (leadingElems t kind)
        ++ trailingElems t kind lastChild.endP = out := Except.ok.inj hout
    subst hout2
    have hT := trailingElems_props t kind lastChild.endP
    have hfm := flatMapLeading_props t kind childNodes _ lastChild.endP
      (fun c hc => ⟨(h1 c hc).1, (h1 c hc).2, h3 c hc⟩) h2 hT.1
      (fun e he => ⟨(hT.2 e he).1, (hT.2 e he).2.1⟩)
      (by
        intro c hc
        rw [hlast] at hc
        simp only [Option.some.injEq] at hc
        subst hc
        exact le_refl _)
    refine ⟨hfm.1.imp (fun a b h => h.1), ?_⟩
    intro e he
    constructor
    · have hb := (hfm.2 e he).1
      cases hhd : childNodes.head? with
      | none =>
        have : childNodes = [] := by
          cases childNodes with
          | nil => rfl
          | cons a l => simp at hhd
        rw [this] at hlast
        simp at hlast
      | some c0 =>
        rw [hhd] at hb
        dsimp only at hb
        have hc0 : c0 ∈ childNodes := List.mem_of_mem_head? (by rw [hhd]; rfl)
        have := hlo c0 hc0
        omega
    · refine flatMapLeading_upper t kind childNodes _ bodyHi ?_ ?_ e he
      · intro c hc
        exact ⟨(h1 c hc).1, (h1 c hc).2, h3 c hc, hhi c hc⟩
      · intro x hx
        have := hT.2 x hx
        have := htrail lastChild hlast
        omega

/-- Witness for the amended claim C1 at the concrete source file
`x;(\n)// c(\n)y;` with body span `0..10`. -/
theorem coverage_amended_witness :
    cmtOut.Chain' (fun a b => elEnd a ≤ elStart b) :=
  (coverage_amended cmtText cmtFile [cmtX, cmtY] .Statement cmtOut 0 10 rfl rfl rfl
    (by decide) (by rw [List.chain'_pair]; decide) (by decide) (by decide) (by decide)
    (by
      intro lc h
      have h2 : some cmtY = some lc := h
      obtain rfl := (Option.some.inj h2).symm
      decide)
    (fun bp h => absurd h (List.cons_ne_nil _ _))).1

theorem getLeadingCommentsAux_jsdoc (t : List Char) :
    ∀ fuel (s : ScannerState),
      (getLeadingCommentsAux t true fuel s).1
        = (getLeadingCommentsAux t false fuel s).1.takeWhile
            (fun g => !(g.any (isJsDocComment t))) := by
  intro fuel
  induction fuel with
  | zero => intro s; simp [getLeadingCommentsAux]
  | succ n ih =>
    intro s
    rw [getLeadingCommentsAux, getLeadingCommentsAux]
    by_cases hemp : (scanForNewLines t s).1.isEmpty
    · simp [hemp]
    · by_cases hjs : (scanForNewLines t s).1.any (isJsDocComment t)
      · simp [hemp, hjs]
      · simp only [hemp, hjs, Bool.true_and, Bool.false_and, if_neg, if_false,
          Bool.false_eq_true, not_false_eq_true, List.takeWhile_cons]
        simp [hjs, ih]

/-- Claim C3: when collecting leading comments (`stopAtJsDoc = true`), the
group loop yields exactly the longest prefix of the `stopAtJsDoc = false`
run whose groups contain no documentation comment — it stops before the
first group containing one, so a documentation comment is never wrapped in
a comment-list pseudo-node; with `stopAtJsDoc = false` (trailing comments)
the check is never applied and every group is yielded. -/
theorem jsdoc_stop_rule (t : List Char) (s : ScannerState) :
    (getLeadingComments t true s).1
      = (getLeadingComments t false s).1.takeWhile (fun g => !(g.any (isJsDocComment t)))
    ∧ ∀ g ∈ (getLeadingComments t true s).1, ∀ c ∈ g, isJsDocComment t c = false := by
  have h := getLeadingCommentsAux_jsdoc t (t.length + 1) s
  constructor
  · exact h
  · intro g hg c hc
    unfold getLeadingComments at hg
    rw [h] at hg
    have := List.mem_takeWhile_imp hg
    simp only [Bool.not_eq_true', List.any_eq_false] at this
    simpa using this c hc

/-- Claim C4: in every comment-collection pass, a scanned comment group is
included in the output if and only if its end is at or before the ceiling
computed from the scanner's final position: the position itself when it
equals the text length or holds a close brace, else the start of its
line. -/
theorem comment_group_ceiling_iff (t : List Char) (kind : CommentListKind)
    (stopAtJsDoc : Bool) (s : ScannerState) (l : CommentList) (p : Nat) :
    (l ∈ (getCommentNodes t kind stopAtJsDoc s).1 ↔
      (l ∈ ((getLeadingComments t stopAtJsDoc (skipTrailingLine t s)).1.map
          (mkCommentList kind))
        ∧ l.endPos ≤ maxEndFor t
            (getLeadingComments t stopAtJsDoc (skipTrailingLine t s)).2.pos))
    ∧ maxEndFor t p
        = if t.length = p ∨ charAt t p = '}' then p else getLineStartFromPos t p := by
  constructor
  · simp [getCommentNodes, List.mem_filter]
  · simp only [maxEndFor, Bool.or_eq_true, decide_eq_true_eq]

theorem skipTrailingLineAux_no_comma (t : List Char) :
    ∀ fuel (s : ScannerState), t.length - s.pos < fuel →
      charAt t ((skipTrailingLineAux t fuel s).pos) ≠ ',' := by
  intro fuel
  induction fuel with
  | zero => intro s h; omega
  | succ n ih =>
    intro s h
    rw [skipTrailingLineAux]
    split
    · rename_i hcomma
      apply ih
      have h1 := scanUntilNewLineOrToken_le t s
      have h2 : (scanUntilNewLineOrToken t s).pos < t.length := by
        apply charAt_ne_null_lt
        rw [hcomma]
        decide
      dsimp only
      omega
    · assumption

/-- Claim C5 (amended): at the start of every comment-collection pass, if
the scanner position is exactly 0 nothing is skipped; otherwise the line is
drained and trailing commas are skipped until a non-comma stop (so the skip
never halts on a comma), and no comment token collected into any yielded
pseudo-node of the pass lies before the post-skip position — the drained
region contributes nothing.  A comment on the same line as the preceding
boundary can still be yielded when the drain leaves it in place for a
following significant token and the end-of-text/close-brace ceiling
exception admits its group (see the counterexample). -/
theorem skip_trailing_line_amended :
    (∀ (t : List Char) (s : ScannerState), s.pos = 0 → skipTrailingLine t s = s)
    ∧ (∀ (t : List Char) (s : ScannerState), s.pos ≠ 0 →
        charAt t ((skipTrailingLine t s).pos) ≠ ',')
    ∧ (∀ (t : List Char) (kind : CommentListKind) (stopAtJsDoc : Bool) (s : ScannerState),
        ∀ l ∈ (getCommentNodes t kind stopAtJsDoc s).1, ∀ tok ∈ l.comments,
          (skipTrailingLine t s).pos ≤ tok.pos) := by
  refine ⟨?_, ?_, ?_⟩
  · intro t s h
    unfold skipTrailingLine
    rw [if_pos h]
  · intro t s h
    unfold skipTrailingLine
    rw [if_neg h]
    exact skipTrailingLineAux_no_comma t (t.length + 1) s (by omega)
  · exact getCommentNodes_comments_lo

/-- Witness for the amended claim C5: both skip modes at concrete states. -/
theorem skip_trailing_line_amended_witness :
    skipTrailingLine exOnlyText ⟨0, 0⟩ = ⟨0, 0⟩
    ∧ charAt exOnlyText ((skipTrailingLine exOnlyText ⟨1, 1⟩).pos) ≠ ',' :=
  ⟨skip_trailing_line_amended.1 exOnlyText ⟨0, 0⟩ rfl,
   skip_trailing_line_amended.2.1 exOnlyText ⟨1, 1⟩ (by decide)⟩

/-- Claim C5 (counterexample): in the object literal over `{ /* only */ }`
the whole text is one line (no line feed at all), the empty-container pass
starts at the open-brace end (offset 1), and the comment at offset 2 — on
the same line as that preceding boundary — is nevertheless wrapped in a
comment-list pseudo-node, so a same-line comment is not always discarded by
the drain. -/
theorem skip_trailing_line_counterexample :
    getNodes exOnlyText exOnlyObj = .ok [TsElement.commentList exOnlyCommentList]
    ∧ '\n' ∉ exOnlyText
    ∧ getContainerBodyPos exOnlyObj exOnlyText.length = .ok 1
    ∧ exOnlyCommentList.comments = [exOnlyTok]
    ∧ exOnlyTok.pos = 2 :=
  ⟨rfl, by decide, rfl, rfl, rfl⟩

/-- Claim C7: a container with zero real children is enumerated by
positioning the scanner at the container body position and performing
exactly one trailing pass with the JSDoc stop rule disabled
(`trailingElems`, which is one `getCommentNodes` pass with
`stopAtJsDoc = false`); in particular the object literal `{ /* only */ }`
yields exactly one comment-list pseudo-node wrapping the comment, with the
open-brace end (offset 1) as the body start. -/
theorem empty_container_trailing_pass :
    (∀ (t : List Char) (container : TsNode) (kind : CommentListKind) (bodyStartPos : Nat),
      getContainerChildren container = .ok [] →
      getCommentListKind container = .ok kind →
      getContainerBodyPos container t.length = .ok bodyStartPos →
      getNodes t container = .ok (trailingElems t kind bodyStartPos))
    ∧ getNodes exOnlyText exOnlyObj = .ok [TsElement.commentList exOnlyCommentList]
    ∧ getTokenEnd exOnlyObj SyntaxKind.OpenBraceToken = some 1 := by
  refine ⟨?_, rfl, rfl⟩
  intro t container kind bodyStartPos hch hk hbp
  unfold getNodes
  rw [hch, hk, exceptBindOk, exceptBindOk]
  rw [hbp, exceptBindOk]
  rfl

/-- Witness for claim C7: the general empty-container rule applied to the
concrete object literal. -/
theorem empty_container_trailing_pass_witness :
    getNodes exOnlyText exOnlyObj
      = .ok (trailingElems exOnlyText .ObjectLiteralElement 1) :=
  empty_container_trailing_pass.1 exOnlyText exOnlyObj .ObjectLiteralElement 1 rfl rfl rfl

theorem lookupChildren_cons_self (i : Nat) (v : List TsElement)
    (l : List (Nat × List TsElement)) (tk : List (TokenKey × List TsElement)) :
    lookupChildren ⟨(i, v) :: l, tk⟩ i = some v := by
  simp [lookupChildren, List.find?_cons_of_pos]

theorem lookupTokens_cons_self (k : TokenKey) (v : List TsElement)
    (l : List (Nat × List TsElement)) (tk : List (TokenKey × List TsElement)) :
    lookupTokens ⟨l, (k, v) :: tk⟩ k = some v := by
  simp [lookupTokens, List.find?_cons_of_pos]

/-- Claim C6: `getOrParseChildren` and `getOrParseTokens` are read-through
caches — a second call with the same key returns the same sequence and
leaves the cache untouched; a syntax-list lookup is redirected to the
list's parent container, computing and storing exactly as a lookup against
the parent itself would, so the only entry a syntax-list call can create is
the parent's. -/
theorem memoization_read_through (t : List Char) (st : CacheState)
    (container parent par2 : TsNode) :
    (∀ v st2, getOrParseChildren t st container parent = .ok (v, st2) →
        getOrParseChildren t st2 container parent = .ok (v, st2))
    ∧ (∀ el par v st2, getOrParseTokens t st el par = .ok (v, st2) →
        getOrParseTokens t st2 el par = .ok (v, st2))
    ∧ (container.kind = SyntaxKind.SyntaxList → parent.kind ≠ SyntaxKind.SyntaxList →
        getOrParseChildren t st container parent = getOrParseChildren t st parent par2)
    ∧ (container.kind = SyntaxKind.SyntaxList →
        ∀ v st2, getOrParseChildren t st container parent = .ok (v, st2) →
          st2.childrenSaver = st.childrenSaver
            ∨ st2.childrenSaver = (parent.id, v) :: st.childrenSaver) := by
  refine ⟨?_, ?_, ?_, ?_⟩
  · intro v st2 hrun
    unfold getOrParseChildren at hrun ⊢
    dsimp only at hrun ⊢
    cases hl : lookupChildren st
        (if container.kind = SyntaxKind.SyntaxList then parent else container).id with
    | some v0 =>
      rw [hl] at hrun
      dsimp only at hrun
      have h2 := Except.ok.inj hrun
      obtain ⟨rfl, rfl⟩ := Prod.mk.injEq _ _ _ _ ▸ h2
      rw [hl]
    | none =>
      rw [hl] at hrun
      dsimp only at hrun
      cases hgn : getNodes t
          (if container.kind = SyntaxKind.SyntaxList then parent else container) with
      | error e =>
        rw [hgn, exceptBindError] at hrun
        exact absurd hrun (by simp)
      | ok v0 =>
        rw [hgn, exceptBindOk] at hrun
        have h2 := Except.ok.inj hrun
        obtain ⟨rfl, rfl⟩ := Prod.mk.injEq _ _ _ _ ▸ h2
        rw [lookupChildren_cons_self]
  · intro el par v st2 hrun
    unfold getOrParseTokens at hrun ⊢
    cases hl : lookupTokens st (elKey el) with
    | some v0 =>
      rw [hl] at hrun
      dsimp only at hrun
      have h2 := Except.ok.inj hrun
      obtain ⟨rfl, rfl⟩ := Prod.mk.injEq _ _ _ _ ▸ h2
      rw [hl]
    | none =>
      rw [hl] at hrun
      dsimp only at hrun
      cases hgt : getTokens t st el par with
      | error e =>
        rw [hgt, exceptBindError] at hrun
        exact absurd hrun (by simp)
      | ok r =>
        rw [hgt, exceptBindOk] at hrun
        have h2 := Except.ok.inj hrun
        obtain ⟨rfl, rfl⟩ := Prod.mk.injEq _ _ _ _ ▸ h2
        rw [lookupTokens_cons_self]
  · intro h1 h2
    unfold getOrParseChildren
    rw [if_pos h1, if_neg h2]
  · intro h1 v st2 hrun
    unfold getOrParseChildren at hrun
    rw [if_pos h1] at hrun
    dsimp only at hrun
    cases hl : lookupChildren st parent.id with
    | some v0 =>
      rw [hl] at hrun
      dsimp only at hrun
      have h2 := Except.ok.inj hrun
      obtain ⟨rfl, rfl⟩ := Prod.mk.injEq _ _ _ _ ▸ h2
      exact Or.inl rfl
    | none =>
      rw [hl] at hrun
      dsimp only at hrun
      cases hgn : getNodes t parent with
      | error e =>
        rw [hgn, exceptBindError] at hrun
        exact absurd hrun (by simp)
      | ok v0 =>
        rw [hgn, exceptBindOk] at hrun
        have h2 := Except.ok.inj hrun
        obtain ⟨rfl, rfl⟩ := Prod.mk.injEq _ _ _ _ ▸ h2
        exact Or.inr rfl

/-- Witness for claim C6: computing the children of the example object
literal fills the cache, and a second call returns the identical entry with
the cache unchanged. -/
theorem memoization_read_through_witness :
    getOrParseChildren exOnlyText ⟨[], []⟩ exOnlyObj exOnlyObj
      = .ok (exOnlyChildren, ⟨[(0, exOnlyChildren)], []⟩)
    ∧ getOrParseChildren exOnlyText ⟨[(0, exOnlyChildren)], []⟩ exOnlyObj exOnlyObj
      = .ok (exOnlyChildren, ⟨[(0, exOnlyChildren)], []⟩) :=
  ⟨rfl,
   (memoization_read_through exOnlyText ⟨[], []⟩ exOnlyObj exOnlyObj exOnlyObj).1
     exOnlyChildren ⟨[(0, exOnlyChildren)], []⟩ rfl⟩

/-- Claim C8: for every declaration-body container (class, interface, enum,
type literal, class expression, object literal), `getContainerBodyPos`
returns the end offset of the open-brace token when one exists, falls back
to the position of the last syntax-list child found scanning the children
in reverse, and fails with the fatal invariant error when no syntax-list
child exists; a container of a kind outside the recognized set fails with
the fatal not-implemented error.  Both failures are `Except.error` values,
which no caller of the embedding recovers from. -/
theorem container_body_pos_spec (container : TsNode) (sourceFileEnd : Nat) :
    ((container.kind = SyntaxKind.ClassDeclaration
        ∨ container.kind = SyntaxKind.InterfaceDeclaration
        ∨ container.kind = SyntaxKind.EnumDeclaration
        ∨ container.kind = SyntaxKind.TypeLiteral
        ∨ container.kind = SyntaxKind.ClassExpression
        ∨ container.kind = SyntaxKind.ObjectLiteralExpression) →
      ((∀ e, getTokenEnd container SyntaxKind.OpenBraceToken = some e →
          getContainerBodyPos container sourceFileEnd = .ok e)
        ∧ (getTokenEnd container SyntaxKind.OpenBraceToken = none →
            getContainerBodyPos container sourceFileEnd = getLastSyntaxListPos container)
        ∧ (∀ syntaxList,
            container.children.reverse.find? (fun c => c.kind = SyntaxKind.SyntaxList)
              = some syntaxList →
            getTokenEnd container SyntaxKind.OpenBraceToken = none →
            getContainerBodyPos container sourceFileEnd = .ok syntaxList.pos)
        ∧ (getTokenEnd container SyntaxKind.OpenBraceToken = none →
            container.children.reverse.find? (fun c => c.kind = SyntaxKind.SyntaxList)
              = none →
            getContainerBodyPos container sourceFileEnd
              = .error CommentParserError.missingSyntaxList)))
    ∧ (container.kind ∉ commentNodeParserKinds →
        getContainerBodyPos container sourceFileEnd
          = .error CommentParserError.notImplementedContainer) := by
  constructor
  · intro hdecl
    have hbody : getContainerBodyPos container sourceFileEnd
        = (match getTokenEnd container SyntaxKind.OpenBraceToken with
           | some e => .ok e
           | none => getLastSyntaxListPos container) := by
      unfold getContainerBodyPos
      rcases hdecl with h | h | h | h | h | h <;>
        rw [h] <;>
        rw [if_neg (by decide), if_pos (by tauto)]
    refine ⟨?_, ?_, ?_, ?_⟩
    · intro e he
      rw [hbody, he]
    · intro hn
      rw [hbody, hn]
    · intro syntaxList hfind hn
      rw [hbody, hn]
      unfold getLastSyntaxListPos
      rw [hfind]
    · intro hn hfind
      rw [hbody, hn]
      unfold getLastSyntaxListPos
      rw [hfind]
  · intro hnot
    simp only [commentNodeParserKinds, List.mem_cons, List.not_mem_nil, or_false,
      not_or] at hnot
    obtain ⟨h1, h2, h3, h4, h5, h6, h7, h8, h9, h10, h11⟩ := hnot
    unfold getContainerBodyPos
    rw [if_neg h1, if_neg (by tauto), if_neg (by tauto), if_neg (by tauto)]

/-- Witness for claim C8: an interface declaration with no open brace and
no syntax-list child fails with the invariant error, and a node of an
unrecognized kind fails with the not-implemented error. -/
theorem container_body_pos_spec_witness :
    getContainerBodyPos ifaceNoList 5 = .error CommentParserError.missingSyntaxList
    ∧ getContainerBodyPos otherKindNode 5
        = .error CommentParserError.notImplementedContainer :=
  ⟨((container_body_pos_spec ifaceNoList 5).1 (Or.inr (Or.inl rfl))).2.2.2 rfl rfl,
   (container_body_pos_spec otherKindNode 5).2 (by decide)⟩

/-- Claim C9: in `parseChildSyntaxList`, the trailing scan end is the
parent's end for a top-level source file, the start of the next structural
sibling when that sibling is a close-brace token (its end minus one, which
is its start for the one-character token), and the end of the source text
otherwise; every comment of the trailing scan kept in the result has its
position at or before this bound. -/
theorem child_syntax_list_search_end (t : List Char) (syntaxList parent : TsNode) :
    (parent.kind = SyntaxKind.SourceFile → getSearchEnd t syntaxList parent = parent.endP)
    ∧ (∀ nextChild, parent.kind ≠ SyntaxKind.SourceFile →
        cslNextChild syntaxList parent = some nextChild →
        nextChild.kind = SyntaxKind.CloseBraceToken →
        nextChild.strt + 1 = nextChild.endP →
        getSearchEnd t syntaxList parent = nextChild.strt)
    ∧ (∀ nextChild, parent.kind ≠ SyntaxKind.SourceFile →
        cslNextChild syntaxList parent = some nextChild →
        nextChild.kind ≠ SyntaxKind.CloseBraceToken →
        getSearchEnd t syntaxList parent = t.length)
    ∧ (parent.kind ≠ SyntaxKind.SourceFile → cslNextChild syntaxList parent = none →
        getSearchEnd t syntaxList parent = t.length)
    ∧ (∀ lastPos, ∀ cm ∈ cslTrailing t syntaxList parent lastPos,
        cm.pos ≤ getSearchEnd t syntaxList parent) := by
  refine ⟨?_, ?_, ?_, ?_, ?_⟩
  · intro h
    unfold getSearchEnd
    rw [if_pos h]
  · intro nextChild h hn hk hw
    unfold getSearchEnd
    rw [if_neg h, hn]
    dsimp only
    rw [if_pos hk]
    omega
  · intro nextChild h hn hk
    unfold getSearchEnd
    rw [if_neg h, hn]
    dsimp only
    rw [if_neg hk]
  · intro h hn
    unfold getSearchEnd
    rw [if_neg h, hn]
  · intro lastPos cm hcm
    have := List.mem_takeWhile_imp hcm
    exact of_decide_eq_true this

/-- Witness for claim C9: in the example object literal, the member syntax
list's next sibling is the close brace at 13..14, so the trailing scan end
is 13. -/
theorem child_syntax_list_search_end_witness :
    getSearchEnd exOnlyText exOnlyList exOnlyObj = 13 :=
  (child_syntax_list_search_end exOnlyText exOnlyList exOnlyObj).2.1 exOnlyCloseBrace
    (by decide) rfl rfl rfl

/-- Claim C10: `shouldParseChildren` classifies a node as a container if and
only if its kind is one of the recognized container kinds and its full
start differs from its end, so a zero-length node of a container kind is
never treated as a container. -/
theorem should_parse_children_iff (container : TsNode) :
    shouldParseChildren container = true ↔
      (container.kind ∈ commentNodeParserKinds ∧ container.pos ≠ container.endP) := by
  unfold shouldParseChildren
  rw [Bool.and_eq_true]
  simp [List.contains, bne_iff_ne]

/-- Witness for claim C3 at the documentation-comment text: the leading run
stops before the group containing the doc comment (yielding nothing), while
the trailing run yields the group. -/
theorem jsdoc_stop_rule_witness :
    (getLeadingComments jsdocText true ⟨0, 0⟩).1
      = (getLeadingComments jsdocText false ⟨0, 0⟩).1.takeWhile
          (fun g => !(g.any (isJsDocComment jsdocText)))
    ∧ (getLeadingComments jsdocText true ⟨0, 0⟩).1 = []
    ∧ (getLeadingComments jsdocText false ⟨0, 0⟩).1
        = [[⟨SyntaxKind.MultiLineCommentTrivia, 0, 0, 8⟩]] :=
  ⟨(jsdoc_stop_rule jsdocText ⟨0, 0⟩).1, rfl, rfl⟩
